import Mathlib

/-!
# oapi-merger: the command-line pipeline of `cmd/oapi-merger/main.go`

A shallow embedding of `main.go`:

* the name resolver that `main` hands to `doc.InternalizeRefs`
  (`strings.TrimSuffix(filepath.Base(r), filepath.Ext(r))`), together with the
  three Go standard-library functions it is built from;
* the pipeline of `main` (flags, load, internalize, validate, encode, write) as a
  function from the answers of its collaborators to the trace of calls it makes
  and its exit code;
* the Internalizer behind `doc.InternalizeRefs`, whose code is not part of the
  repository's files, as the specification describes it, fed with the names of the
  resolver of `main.go`.

Go strings are modelled as lists of characters.  The functions involved only ever
look for the ASCII bytes `/` and `.`, which never occur inside the UTF-8 encoding
of another character, so scanning characters and scanning bytes agree.  Paths
follow the Unix build of `path/filepath` (separator `/`, no volume names).
-/

set_option autoImplicit false

namespace OapiMerger

/-! ## Go strings and the standard-library functions used by the resolver -/

/-- A Go string. -/
abbrev GoString := List Char

/-- Go `os.IsPathSeparator` on Unix: `c == '/'`. -/
def IsPathSeparator (c : Char) : Bool := c == '/'

/-- The first loop of `filepath.Base`:
`for len(path) > 0 && os.IsPathSeparator(path[len(path)-1]) { path = path[0 : len(path)-1] }`. -/
def stripTrailingSeparators (path : GoString) : GoString :=
  path.rdropWhile IsPathSeparator

/-- The second loop of `filepath.Base`:
`i := len(path) - 1; for i >= 0 && !os.IsPathSeparator(path[i]) { i-- }; if i >= 0 { path = path[i+1:] }`,
the longest separator-free suffix. -/
def lastElement (path : GoString) : GoString :=
  path.rtakeWhile (fun c => !IsPathSeparator c)

/-- Go `filepath.Base` (Unix): the last element of `path`; trailing separators are
removed first; `"."` for the empty path and `"/"` for a path of separators only. -/
def Base (path : GoString) : GoString :=
  if path = [] then ['.']
  else
    let path := lastElement (stripTrailingSeparators path)
    if path = [] then ['/'] else path

/-- The loop of `filepath.Ext`, run over the reversed path: `rest` holds
`path[i], path[i-1], ...` and `acc` is `path[i+1:]`. -/
def extLoop : List Char → GoString → GoString
  | [], _ => []
  | c :: rest, acc =>
    if IsPathSeparator c then []
    else if c = '.' then c :: acc
    else extLoop rest (c :: acc)

/-- Go `filepath.Ext`:
`for i := len(path) - 1; i >= 0 && !os.IsPathSeparator(path[i]); i-- { if path[i] == '.' { return path[i:] } }; return ""`. -/
def Ext (path : GoString) : GoString :=
  extLoop path.reverse []

/-- Go `strings.HasSuffix`. -/
def HasSuffix (s suffix : GoString) : Bool :=
  suffix.isSuffixOf s

/-- Go `strings.TrimSuffix`: `if HasSuffix(s, suffix) { return s[:len(s)-len(suffix)] }; return s`. -/
def TrimSuffix (s suffix : GoString) : GoString :=
  if HasSuffix s suffix then s.take (s.length - suffix.length) else s

/-- A directory prefix: empty, or ending in a separator. -/
def IsDirPrefix (d : GoString) : Prop := d = [] ∨ d.getLast? = some '/'

instance instDecidableIsDirPrefix (d : GoString) : Decidable (IsDirPrefix d) := by
  unfold IsDirPrefix; infer_instance

/-! ## The name resolver (`main.go`, lines 55-57) -/

/-- The part of `openapi3.ComponentRef` the resolver reads: `ref.RefString()`. -/
structure ComponentRef where
  RefString : GoString
  deriving DecidableEq, Repr

/-- The closure passed to `doc.InternalizeRefs`:
`func(t *openapi3.T, ref openapi3.ComponentRef) string {
   return strings.TrimSuffix(filepath.Base(ref.RefString()), filepath.Ext(ref.RefString())) }`. -/
def nameResolver {T : Type} (_t : T) (ref : ComponentRef) : GoString :=
  TrimSuffix (Base ref.RefString) (Ext ref.RefString)

/-! ## The candidate name as the specification words it -/

/-- The referenced file of a reference string `<file path>` or
`<file path>#<in-file pointer>`: the part before the first `#`. -/
def referencedFile (r : GoString) : GoString :=
  r.takeWhile (fun c => c != '#')

/-- The specification's candidate name: "the referenced file's base name (file
name without extension)". -/
def fileBaseName (r : GoString) : GoString :=
  TrimSuffix (Base (referencedFile r)) (Ext (referencedFile r))

/-! ## Local pointers -/

/-- The local pointer `"#/components/" + category + "/" + name`. -/
def localPointer (category name : GoString) : GoString :=
  "#/components/".toList ++ category ++ '/' :: name

/-! ## The Internalizer of the specification

`doc.InternalizeRefs` is called on line 55 and defined outside `main.go`; no file of
the repository holds its code.  What it does is taken from the specification (§3
Data model, §4.2 Internalizer); the candidate name of step 1 is what the resolver
of `main.go` returns. -/

/-- Modelled from the spec: the code of `doc.InternalizeRefs` is missing; §3, an
external reference is "a pair (absolute file path, in-file pointer) identifying an
object defined in another file".  The pair is the identity of the object. -/
structure Target where
  file : GoString
  pointer : GoString
  deriving DecidableEq, Repr

/-- Modelled from the spec: the code of `doc.InternalizeRefs` is missing; §3, a
reference is "either (a) a local reference [...] or (b) an external reference".
`ref` is the reference as written at the site, the string `ref.RefString()` hands
to the resolver. -/
inductive Reference where
  | loc (ref : GoString)
  | ext (ref : GoString) (target : Target)
  deriving DecidableEq, Repr

/-- Modelled from the spec: the code of `doc.InternalizeRefs` is missing; §3, the
registry maps a name to a "component object", compared by identity (§4.2 step 2):
a component the root document declares under a name, or the object of an external
reference that was hoisted into the registry. -/
inductive Component where
  | declared (name : GoString)
  | hoisted (target : Target)
  deriving DecidableEq, Repr

/-- Modelled from the spec: the code of `doc.InternalizeRefs` is missing; §3, the
registry of one category (name to component object, in insertion order) and the
VisitedSet, "set of (file path, pointer) pairs already internalized", each with
its "already-assigned local name" (§4.2). -/
structure InternalizeState where
  registry : List (GoString × Component)
  visited : List (Target × GoString)
  deriving DecidableEq, Repr

/-- Modelled from the spec: the code of `doc.InternalizeRefs` is missing; §3, the
Document as "created by the Loader": the registry holds the components the root
declares, and the VisitedSet, which "lives only for the duration of one
internalization run", is empty. -/
def loaded (declared : List GoString) : InternalizeState :=
  ⟨declared.map (fun n => (n, Component.declared n)), []⟩

/-- Modelled from the spec: the code of `doc.InternalizeRefs` is missing; the digits
of the "numeric suffix" (§4.2 step 2), least significant first; `fuel` bounds
their number. -/
def decimalRev : Nat → Nat → List Char
  | 0, _ => []
  | fuel + 1, n =>
    if n < 10 then [Nat.digitChar n]
    else Nat.digitChar (n % 10) :: decimalRev fuel (n / 10)

/-- The number a list of decimal digits, least significant first, stands for. -/
def decimalValue : List Char → Nat
  | [] => 0
  | c :: cs => (c.toNat - 48) + 10 * decimalValue cs

/-- Modelled from the spec: the code of `doc.InternalizeRefs` is missing; §8, the
"numeric suffix" of a disambiguated name, as in `error2`: `n` in decimal. -/
def decimal (n : Nat) : GoString :=
  (decimalRev (n + 1) n).reverse

/-- Modelled from the spec: the code of `doc.InternalizeRefs` is missing; §4.2
step 2, "disambiguate by appending an incrementing numeric suffix until the name
is free": tries `cand ++ n`, `cand ++ (n+1)`, ... against the names taken; `none`
when the tries are used up ("naming logic failing to converge", §7).  The
Internalizer starts at `2`, as in the example `error`, `error2` of §8, with one
more try than there are names in the registry. -/
def disambiguate (taken : List GoString) (cand : GoString) : Nat → Nat → Option GoString
  | 0, _ => none
  | tries + 1, n =>
    if cand ++ decimal n ∈ taken then disambiguate taken cand tries (n + 1)
    else some (cand ++ decimal n)

/-- Modelled from the spec: the code of `doc.InternalizeRefs` is missing; §4.2
steps 3 and 4, "insert the referenced object into the registry under the chosen
category/name" and "rewrite the reference at the visiting site to the local
pointer"; the pair joins the VisitedSet with the name it was given. -/
def hoist (category : GoString) (st : InternalizeState) (target : Target)
    (name : GoString) : InternalizeState × GoString :=
  (⟨st.registry ++ [(name, Component.hoisted target)], st.visited ++ [(target, name)]⟩,
    localPointer category name)

/-- Modelled from the spec: the code of `doc.InternalizeRefs` is missing; §4.2,
what the Internalizer does at one reference.  A local reference is "left
untouched".  An external reference whose pair is in the VisitedSet "resolves to
the already-assigned local name".  Otherwise the candidate name is derived (step
1, by the resolver of `main.go`); if the registry has no component under it the
object is hoisted under it; if it has one and it "is the same object" the name is
reused; if it "is not the same object" the name is disambiguated first.  `none` is
the `InternalizeError`. -/
def internalizeReference (category : GoString) (st : InternalizeState) :
    Reference → Option (InternalizeState × GoString)
  | Reference.loc ref => some (st, ref)
  | Reference.ext ref target =>
    match st.visited.lookup target with
    | some name => some (st, localPointer category name)
    | none =>
      let cand := nameResolver st ⟨ref⟩
      match st.registry.lookup cand with
      | none => some (hoist category st target cand)
      | some o =>
        if o = Component.hoisted target then
          some (⟨st.registry, st.visited ++ [(target, cand)]⟩, localPointer category cand)
        else
          (disambiguate (st.registry.map Prod.fst) cand (st.registry.length + 1) 2).map
            (hoist category st target)

/-- Modelled from the spec: the code of `doc.InternalizeRefs` is missing; §4.2, the
traversal visits the references of the document one after the other; `refs` are
the references in visiting order, those found in the body of a hoisted object
(step 5) included, and the result holds each of them as rewritten. -/
def internalize (category : GoString) :
    InternalizeState → List Reference → Option (InternalizeState × List GoString)
  | st, [] => some (st, [])
  | st, r :: rs =>
    match internalizeReference category st r with
    | none => none
    | some (st1, ref1) =>
      match internalize category st1 rs with
      | none => none
      | some (st2, refs) => some (st2, ref1 :: refs)

/-! ## The pipeline of `main` -/

/-- The four package-level flag variables as `flag.Parse()` leaves them. -/
structure Flags where
  flagInputFile : String
  flagOutputFile : String
  flagOutputFormat : String
  flagPrintUsage : Bool
  deriving DecidableEq, Repr

/-- The defaults registered on lines 25-29: `-i ""`, `-o ""`, `-f "yaml"`, `-help false`. -/
def defaultFlags : Flags := ⟨"", "", "yaml", false⟩

/-- A Go `[]byte`; `nil` is the empty list. -/
abbrev Bytes := List Nat

/-- The `io.Writer` chosen on lines 74-96: `os.Stdout`, or the file made by `os.Create`. -/
inductive Dest where
  | stdout
  | file (path : String)
  deriving DecidableEq, Repr

/-- The collaborators `main` calls, each reduced to the answer it gives; a Go `error`
is its message, `none` is the `nil` error.  `T` is `openapi3.T`, `X` the value
returned by `doc.MarshalYAML()`. -/
structure World (T X : Type) where
  /-- Go `filepath.Abs`. -/
  abs : String → Except String String
  /-- Go `loader.LoadFromFile` with `IsExternalRefsAllowed = true`. -/
  loadFromFile : String → Except String T
  /-- Go `doc.InternalizeRefs(ctx, resolver)`: the document after the in-place rewrite. -/
  internalizeRefs : T → (T → ComponentRef → GoString) → T
  /-- Go `doc.Validate(ctx)`. -/
  validate : T → Option String
  /-- Go `doc.MarshalYAML()`. -/
  docMarshalYAML : T → Except String X
  /-- Go `yaml.NewEncoder(buffer)` with `SetIndent(2)`, then `Encode(x)`: the buffer, or the error. -/
  yamlEncode : X → Except String Bytes
  /-- Go `json.NewEncoder(buffer)` with `SetIndent("", "  ")`, then `Encode(x)`. -/
  jsonEncode : X → Except String Bytes
  /-- Go `os.Create`: creates or truncates the file. -/
  create : String → Option String
  /-- Go `w.Write(b)`. -/
  write : Dest → Bytes → Option String
  /-- Go `outputFile.Close()`. -/
  close : String → Option String

/-- One observable call made by a run of `main`. -/
inductive Event (T : Type) where
  /-- Go `flag.Usage()`. -/
  | usage
  /-- Go `fmt.Fprintf(os.Stderr, format, args...)` inside `errExit`. -/
  | stderr (format : String) (args : List String)
  /-- Go `filepath.Abs(path)`. -/
  | absPath (path : String)
  /-- Go `loader.LoadFromFile(path)`. -/
  | load (path : String)
  /-- Go `doc.InternalizeRefs(...)` on the loaded document `doc`. -/
  | internalize (doc : T)
  /-- Go `doc.Validate(...)` on `doc`. -/
  | validate (doc : T)
  /-- Go `marshalYAML(doc)`. -/
  | marshalYAML (doc : T)
  /-- Go `marshalJSON(doc)`. -/
  | marshalJSON (doc : T)
  /-- Go `os.Create(path)`. -/
  | create (path : String)
  /-- Go `w.Write(b)`. -/
  | write (dest : Dest) (b : Bytes)
  /-- Go `outputFile.Close()`, the deferred call. -/
  | close (path : String)
  deriving DecidableEq, Repr

/-- What a run leaves behind: the calls it made, in order, and the exit code. -/
structure Outcome (T : Type) where
  trace : List (Event T)
  exitCode : Nat
  deriving DecidableEq, Repr

/-- Lines 148-150 of `errExit`:
`if !strings.HasSuffix(format, "\n") { format = format + "\n" }`. -/
def withNewline (format : String) : String :=
  if HasSuffix format.data ['\n'] then format else format ++ "\n"

/-- Go `errExit` (lines 147-155): complete the format with a newline, print to
standard error, `os.Exit(1)`.  `trace` is the run so far. -/
def errExit {T : Type} (trace : List (Event T)) (format : String) (args : List String) :
    Outcome T :=
  ⟨trace ++ [Event.stderr (withNewline format) args], 1⟩

/-- Go `marshalYAML` (lines 103-123); the result is the pair `([]byte, error)`. -/
def marshalYAML {T X : Type} (w : World T X) (doc : Option T) : Bytes × Option String :=
  match doc with
  | none => ([], none)
  | some d =>
    match w.docMarshalYAML d with
    | .error err => ([], some err)
    | .ok x =>
      match w.yamlEncode x with
      | .error err => ([], some err)
      | .ok buffer => (buffer, none)

/-- Go `marshalJSON` (lines 125-145); the result is the pair `([]byte, error)`. -/
def marshalJSON {T X : Type} (w : World T X) (doc : Option T) : Bytes × Option String :=
  match doc with
  | none => ([], none)
  | some d =>
    match w.docMarshalYAML d with
    | .error err => ([], some err)
    | .ok x =>
      match w.jsonEncode x with
      | .error err => ([], some err)
      | .ok buffer => (buffer, none)

/-- Lines 74-100 of `main`: choose the writer, write `b`, run the deferred close. -/
def writeOutput {T X : Type} (w : World T X) (f : Flags) (trace : List (Event T))
    (b : Bytes) : Outcome T :=
  if f.flagOutputFile = "" then
    let t1 := trace ++ [Event.write Dest.stdout b]
    match w.write Dest.stdout b with
    | some err => errExit t1 "error writing output file: %s" [err]
    | none => ⟨t1, 0⟩
  else
    let t1 := trace ++ [Event.absPath f.flagOutputFile]
    match w.abs f.flagOutputFile with
    | .error err => errExit t1 "error getting output file absolute path: %s" [err]
    | .ok outputFilePath =>
      let t2 := t1 ++ [Event.create outputFilePath]
      match w.create outputFilePath with
      | some err => errExit t2 "error creating output file: %s" [err]
      | none =>
        let t3 := t2 ++ [Event.write (Dest.file outputFilePath) b]
        match w.write (Dest.file outputFilePath) b with
        | some err => errExit t3 "error writing output file: %s" [err]
        | none =>
          let t4 := t3 ++ [Event.close outputFilePath]
          match w.close outputFilePath with
          | some err => errExit t4 "error closing output file: %s" [err]
          | none => ⟨t4, 0⟩

/-- Lines 63-72 of `main` and what follows: the `switch` on the format assigns
`b, err` from the chosen encoder; `err` is not read again before `b` is written. -/
def encodeAndWrite {T X : Type} (w : World T X) (f : Flags) (trace : List (Event T))
    (doc : T) : Outcome T :=
  if f.flagOutputFormat = "yaml" then
    let (b, _err) := marshalYAML w (some doc)
    writeOutput w f (trace ++ [Event.marshalYAML doc]) b
  else if f.flagOutputFormat = "json" then
    let (b, _err) := marshalJSON w (some doc)
    writeOutput w f (trace ++ [Event.marshalJSON doc]) b
  else
    errExit trace "unsupported output format: %s" [f.flagOutputFormat]

/-- Go `main` (lines 24-101), after `flag.Parse()`. -/
def main {T X : Type} (w : World T X) (f : Flags) : Outcome T :=
  if f.flagPrintUsage then ⟨[Event.usage], 0⟩
  else if f.flagInputFile = "" then errExit [] "input file is required" []
  else
    let t1 := [Event.absPath f.flagInputFile]
    match w.abs f.flagInputFile with
    | .error err => errExit t1 "error getting input file absolute path: %s" [err]
    | .ok inputFilePath =>
      let t2 := t1 ++ [Event.load inputFilePath]
      match w.loadFromFile inputFilePath with
      | .error err => errExit t2 "error loading file: %s" [err]
      | .ok doc0 =>
        let t3 := t2 ++ [Event.internalize doc0]
        let doc := w.internalizeRefs doc0 nameResolver
        let t4 := t3 ++ [Event.validate doc]
        match w.validate doc with
        | some err => errExit t4 "error validating document: %s" [err]
        | none => encodeAndWrite w f t4 doc

/-- The pipeline stages named by the specification. -/
inductive Stage where
  | load
  | internalize
  | validate
  | serialize
  | write
  deriving DecidableEq, Repr

/-- The stage an event belongs to, if any. -/
def Event.stage {T : Type} : Event T → Option Stage
  | Event.load _ => some Stage.load
  | Event.internalize _ => some Stage.internalize
  | Event.validate _ => some Stage.validate
  | Event.marshalYAML _ => some Stage.serialize
  | Event.marshalJSON _ => some Stage.serialize
  | Event.write _ _ => some Stage.write
  | _ => none

/-- The stages of a trace, in the order they ran. -/
def stages {T : Type} (trace : List (Event T)) : List Stage :=
  trace.filterMap Event.stage

/-- An encoder was invoked. -/
def Event.isMarshal {T : Type} : Event T → Bool
  | Event.marshalYAML _ => true
  | Event.marshalJSON _ => true
  | _ => false

/-- The event touches the output: a file is created or truncated, or bytes are written
to the output file or to standard output. -/
def Event.isOutput {T : Type} : Event T → Bool
  | Event.create _ => true
  | Event.write _ _ => true
  | _ => false

/-- The events `writeOutput` adds: calls on the destination and possibly one message. -/
def IsWriteOutputEvent {T : Type} : Event T → Prop
  | Event.absPath _ => True
  | Event.create _ => True
  | Event.write _ _ => True
  | Event.close _ => True
  | Event.stderr _ _ => True
  | _ => False

/-- The destination accepts `b`: standard output takes the write, or the output
path resolves, the file is created, takes the write and closes. -/
def DestinationSucceeds {T X : Type} (w : World T X) (f : Flags) (b : Bytes) : Prop :=
  (f.flagOutputFile = "" ∧ w.write Dest.stdout b = none) ∨
  (f.flagOutputFile ≠ "" ∧ ∃ q, w.abs f.flagOutputFile = Except.ok q ∧ w.create q = none ∧
    w.write (Dest.file q) b = none ∧ w.close q = none)

/-- The order of the pipeline. -/
def pipelineOrder : List Stage :=
  [Stage.load, Stage.internalize, Stage.validate, Stage.serialize, Stage.write]

/-- A small concrete world: documents and marshalled values are strings; only
`/work/api.yaml` can be loaded; validation and the two encoders answer as told. -/
def demoWorld (validateErr : Option String) (yamlOut jsonOut : Except String Bytes) :
    World String String where
  abs := fun p => .ok ("/work/" ++ p)
  loadFromFile := fun p => if p = "/work/api.yaml" then .ok "api" else .error "no such file"
  internalizeRefs := fun d _ => d ++ "+refs"
  validate := fun _ => validateErr
  docMarshalYAML := fun d => .ok d
  yamlEncode := fun _ => yamlOut
  jsonEncode := fun _ => jsonOut
  create := fun _ => none
  write := fun _ _ => none
  close := fun _ => none

/-! ## Facts about the standard-library functions -/

section StringLemmas

theorem isPathSeparator_iff (c : Char) : IsPathSeparator c = true ↔ c = '/' := by
  simp [IsPathSeparator]

theorem not_isPathSeparator_iff (c : Char) : (!IsPathSeparator c) = true ↔ c ≠ '/' := by
  simp [IsPathSeparator]

theorem IsDirPrefix.reverse_cases {d : GoString} (h : IsDirPrefix d) :
    d.reverse = [] ∨ ∃ t, d.reverse = '/' :: t := by
  rcases h with h | h
  · left; simp [h]
  · right
    rw [List.getLast?_eq_head?_reverse] at h
    cases hr : d.reverse with
    | nil => simp [hr] at h
    | cons c t =>
      rw [hr] at h
      simp at h
      exact ⟨t, by rw [h]⟩

/-- The scan of `Ext` stops at a separator: what lies before it is never read. -/
theorem extLoop_append_stop (a b : List Char) (acc : GoString)
    (hb : b = [] ∨ ∃ t, b = '/' :: t) : extLoop (a ++ b) acc = extLoop a acc := by
  induction a generalizing acc with
  | nil =>
    rcases hb with hb | ⟨t, hb⟩
    · simp [hb]
    · simp [hb, extLoop, IsPathSeparator]
  | cons c a ih =>
    simp only [List.cons_append, extLoop]
    split
    · rfl
    · split
      · rfl
      · exact ih _

/-- The scan of `Ext` returns everything from the first dot it meets. -/
theorem extLoop_dot (l rest : List Char) (acc : GoString)
    (hl : ∀ c ∈ l, c ≠ '/' ∧ c ≠ '.') :
    extLoop (l ++ '.' :: rest) acc = '.' :: (l.reverse ++ acc) := by
  induction l generalizing acc with
  | nil => simp [extLoop, IsPathSeparator]
  | cons c l ih =>
    have hc := hl c (List.mem_cons_self _ _)
    have hl2 : ∀ x ∈ l, x ≠ '/' ∧ x ≠ '.' := fun x hx => hl x (List.mem_cons_of_mem _ hx)
    show extLoop (c :: (l ++ '.' :: rest)) acc = _
    rw [extLoop]
    simp only [IsPathSeparator, beq_iff_eq, hc.1, hc.2, if_false]
    rw [ih _ hl2]
    simp

/-- Without a dot the scan of `Ext` finds nothing. -/
theorem extLoop_no_dot (l : List Char) (acc : GoString) (hl : ∀ c ∈ l, c ≠ '.') :
    extLoop l acc = [] := by
  induction l generalizing acc with
  | nil => rfl
  | cons c l ih =>
    have hc := hl c (List.mem_cons_self _ _)
    have hl2 : ∀ x ∈ l, x ≠ '.' := fun x hx => hl x (List.mem_cons_of_mem _ hx)
    simp only [extLoop, hc, if_false]
    split
    · rfl
    · exact ih _ hl2

/-- Whatever `Ext` returns is a suffix of the separator-free tail it scanned. -/
theorem extLoop_suffix (l : List Char) (acc : GoString) :
    extLoop l acc <:+ (l.takeWhile (fun c => !IsPathSeparator c)).reverse ++ acc := by
  induction l generalizing acc with
  | nil => simp [extLoop]
  | cons c l ih =>
    simp only [extLoop]
    split
    · exact List.nil_suffix
    · rename_i hsep
      have hns : (!IsPathSeparator c) = true := by simpa using hsep
      simp only [List.takeWhile_cons, hns, if_true]
      split
      · simp
      · have := ih (c :: acc)
        simpa using this

theorem Ext_suffix_lastElement (path : GoString) : Ext path <:+ lastElement path := by
  have := extLoop_suffix path.reverse []
  simpa [Ext, lastElement, List.rtakeWhile] using this

theorem Ext_append_dirPrefix (d s : GoString) (hd : IsDirPrefix d) :
    Ext (d ++ s) = Ext s := by
  unfold Ext
  rw [List.reverse_append]
  exact extLoop_append_stop _ _ _ hd.reverse_cases

theorem Ext_stem_dot_ext (pre ext : GoString) (h1 : '/' ∉ ext) (h2 : '.' ∉ ext) :
    Ext (pre ++ '.' :: ext) = '.' :: ext := by
  unfold Ext
  have : (pre ++ '.' :: ext).reverse = ext.reverse ++ '.' :: pre.reverse := by simp
  rw [this, extLoop_dot]
  · simp
  · intro c hc
    have hc2 : c ∈ ext := by simpa using hc
    exact ⟨fun h => h1 (h ▸ hc2), fun h => h2 (h ▸ hc2)⟩

theorem takeWhile_append_stop {α : Type} (p : α → Bool) (a b : List α)
    (hb : b = [] ∨ ∃ x t, b = x :: t ∧ p x = false) :
    (a ++ b).takeWhile p = a.takeWhile p := by
  induction a with
  | nil =>
    rcases hb with hb | ⟨x, t, hb, hx⟩
    · simp [hb]
    · simp [hb, List.takeWhile_cons, hx]
  | cons c a ih =>
    simp only [List.cons_append, List.takeWhile_cons, ih]

theorem dropWhile_append_of_ne_nil {α : Type} (p : α → Bool) (a b : List α)
    (h : a.dropWhile p ≠ []) : (a ++ b).dropWhile p = a.dropWhile p ++ b := by
  induction a with
  | nil => simp at h
  | cons c a ih =>
    simp only [List.cons_append, List.dropWhile_cons] at h ⊢
    split
    · rename_i hc
      simp only [hc, if_true] at h
      exact ih h
    · rfl

theorem lastElement_append_dirPrefix (d s : GoString) (hd : IsDirPrefix d) :
    lastElement (d ++ s) = lastElement s := by
  unfold lastElement List.rtakeWhile
  rw [List.reverse_append]
  congr 1
  apply takeWhile_append_stop
  rcases hd.reverse_cases with h | ⟨t, h⟩
  · exact Or.inl h
  · exact Or.inr ⟨'/', t, h, by simp [IsPathSeparator]⟩

theorem stripTrailingSeparators_append (d s : GoString)
    (hs : stripTrailingSeparators s ≠ []) :
    stripTrailingSeparators (d ++ s) = d ++ stripTrailingSeparators s := by
  unfold stripTrailingSeparators List.rdropWhile at hs ⊢
  rw [List.reverse_append, dropWhile_append_of_ne_nil]
  · simp
  · simpa using hs

theorem stripTrailingSeparators_ne_nil (s : GoString) (hs : ∃ c ∈ s, c ≠ '/') :
    stripTrailingSeparators s ≠ [] := by
  obtain ⟨c, hc, hne⟩ := hs
  intro h
  rw [stripTrailingSeparators, List.rdropWhile_eq_nil_iff] at h
  exact hne ((isPathSeparator_iff c).1 (h c hc))

theorem stripTrailingSeparators_eq_self (s : GoString) (h : s.getLast? ≠ some '/') :
    stripTrailingSeparators s = s := by
  rw [stripTrailingSeparators, List.rdropWhile_eq_self_iff]
  intro hl hp
  apply h
  rw [List.getLast?_eq_getLast _ hl, (isPathSeparator_iff _).1 hp]

theorem lastElement_ne_nil (s : GoString) (hs : s ≠ []) (h : s.getLast? ≠ some '/') :
    lastElement s ≠ [] := by
  intro hnil
  rw [lastElement, List.rtakeWhile_eq_nil_iff] at hnil
  have := hnil hs
  apply h
  rw [List.getLast?_eq_getLast _ hs]
  congr 1
  simpa [IsPathSeparator] using this

theorem not_sep_of_mem_lastElement (s : GoString) : '/' ∉ lastElement s := by
  intro h
  have := List.mem_rtakeWhile_imp h
  simp [IsPathSeparator] at this

theorem getLast?_stripTrailingSeparators (s : GoString) :
    (stripTrailingSeparators s).getLast? ≠ some '/' := by
  intro h
  have hne : stripTrailingSeparators s ≠ [] := by
    intro h0; rw [h0] at h; simp at h
  have := List.rdropWhile_last_not (fun c => IsPathSeparator c) s hne
  rw [List.getLast?_eq_getLast _ hne] at h
  apply this
  have h2 : (List.rdropWhile (fun c => IsPathSeparator c) s).getLast hne = '/' := by
    simpa [stripTrailingSeparators] using h
  rw [h2]; rfl

/-- With at least one non-separator character, `Base` is the last element of the
path without its trailing separators, and that element is not empty. -/
theorem Base_eq_lastElement_strip (r : GoString) (hr : ∃ c ∈ r, c ≠ '/') :
    Base r = lastElement (stripTrailingSeparators r) ∧
      lastElement (stripTrailingSeparators r) ≠ [] := by
  have hne : r ≠ [] := by
    obtain ⟨c, hc, _⟩ := hr
    exact List.ne_nil_of_mem hc
  have h1 := stripTrailingSeparators_ne_nil r hr
  have h2 := lastElement_ne_nil _ h1 (getLast?_stripTrailingSeparators r)
  refine ⟨?_, h2⟩
  simp [Base, hne, h2]

theorem Base_eq_lastElement (r : GoString) (hr : r ≠ []) (h : r.getLast? ≠ some '/') :
    Base r = lastElement r := by
  have h2 := lastElement_ne_nil r hr h
  simp [Base, hr, stripTrailingSeparators_eq_self r h, h2]

theorem Base_append_dirPrefix (d s : GoString) (hd : IsDirPrefix d)
    (hs : ∃ c ∈ s, c ≠ '/') : Base (d ++ s) = Base s := by
  have hds : ∃ c ∈ d ++ s, c ≠ '/' := by
    obtain ⟨c, hc, hne⟩ := hs
    exact ⟨c, List.mem_append_right _ hc, hne⟩
  rw [(Base_eq_lastElement_strip _ hds).1, (Base_eq_lastElement_strip _ hs).1,
    stripTrailingSeparators_append _ _ (stripTrailingSeparators_ne_nil s hs),
    lastElement_append_dirPrefix _ _ hd]

theorem Base_of_clean (s : GoString) (hs : s ≠ []) (h : '/' ∉ s) : Base s = s := by
  have hlast : s.getLast? ≠ some '/' := by
    intro hl
    exact h (List.mem_of_getLast?_eq_some hl)
  rw [Base_eq_lastElement s hs hlast, lastElement, List.rtakeWhile_eq_self_iff]
  intro c hc
  have : c ≠ '/' := fun e => h (e ▸ hc)
  simpa [IsPathSeparator] using this

theorem TrimSuffix_prefix (s suffix : GoString) : TrimSuffix s suffix <+: s := by
  unfold TrimSuffix
  split
  · exact List.take_prefix _ _
  · exact List.prefix_refl _

theorem TrimSuffix_append (a b : GoString) : TrimSuffix (a ++ b) b = a := by
  have : HasSuffix (a ++ b) b = true := by
    simp [HasSuffix]
  simp [TrimSuffix, this]

theorem TrimSuffix_append_of_suffix (s suffix : GoString) (h : suffix <:+ s) :
    TrimSuffix s suffix ++ suffix = s := by
  obtain ⟨t, rfl⟩ := h
  rw [TrimSuffix_append]

end StringLemmas

/-! ## The pipeline -/

section Pipeline

variable {T X : Type}

theorem errExit_exitCode (t : List (Event T)) (format : String) (args : List String) :
    (errExit t format args).exitCode = 1 := rfl

theorem errExit_trace (t : List (Event T)) (format : String) (args : List String) :
    ∃ m, (errExit t format args).trace = t ++ [Event.stderr m args] := ⟨_, rfl⟩

/-- What `writeOutput` adds to the trace does not depend on the trace so far. -/
theorem writeOutput_eq (w : World T X) (f : Flags) (t : List (Event T)) (b : Bytes) :
    writeOutput w f t b =
      ⟨t ++ (writeOutput w f [] b).trace, (writeOutput w f [] b).exitCode⟩ := by
  unfold writeOutput
  split
  · split <;> simp [errExit]
  · split
    · simp [errExit]
    · split
      · simp [errExit]
      · split
        · simp [errExit]
        · split <;> simp [errExit]

theorem writeOutput_events (w : World T X) (f : Flags) (b : Bytes) :
    ∀ ev ∈ (writeOutput w f [] b).trace, IsWriteOutputEvent ev := by
  unfold writeOutput
  split
  · split <;> simp [errExit, IsWriteOutputEvent]
  · split
    · simp [errExit, IsWriteOutputEvent]
    · split
      · simp [errExit, IsWriteOutputEvent]
      · split
        · simp [errExit, IsWriteOutputEvent]
        · split <;> simp [errExit, IsWriteOutputEvent]

theorem withNewline_validating :
    withNewline "error validating document: %s" = "error validating document: %s\n" := by
  decide

theorem withNewline_format :
    withNewline "unsupported output format: %s" = "unsupported output format: %s\n" := by
  decide

/-- What the encode-and-write part adds to the trace does not depend on the trace so far. -/
theorem encodeAndWrite_eq (w : World T X) (f : Flags) (t : List (Event T)) (doc : T) :
    encodeAndWrite w f t doc =
      ⟨t ++ (encodeAndWrite w f [] doc).trace, (encodeAndWrite w f [] doc).exitCode⟩ := by
  unfold encodeAndWrite
  split
  · simp only []
    rw [writeOutput_eq w f (t ++ _), writeOutput_eq w f ([] ++ _)]
    simp
  · split
    · simp only []
      rw [writeOutput_eq w f (t ++ _), writeOutput_eq w f ([] ++ _)]
      simp
    · simp [errExit]

/-- The events the encode-and-write part adds. -/
theorem encodeAndWrite_events (w : World T X) (f : Flags) (doc : T) :
    ∀ ev ∈ (encodeAndWrite w f [] doc).trace,
      ev = Event.marshalYAML doc ∨ ev = Event.marshalJSON doc ∨ IsWriteOutputEvent ev := by
  intro ev hev
  unfold encodeAndWrite at hev
  split at hev
  · simp only [] at hev
    rw [writeOutput_eq] at hev
    simp only [List.nil_append, List.mem_append, List.mem_singleton, List.cons_append,
      List.mem_cons] at hev
    rcases hev with h | h
    · exact Or.inl h
    · exact Or.inr (Or.inr (writeOutput_events w f _ ev h))
  · split at hev
    · simp only [] at hev
      rw [writeOutput_eq] at hev
      simp only [List.nil_append, List.mem_append, List.mem_singleton, List.cons_append,
        List.mem_cons] at hev
      rcases hev with h | h
      · exact Or.inr (Or.inl h)
      · exact Or.inr (Or.inr (writeOutput_events w f _ ev h))
    · simp [errExit] at hev
      exact Or.inr (Or.inr (by rw [hev]; trivial))

/-- C3. When help is not requested and `doc.Validate` reports an error for the
document it is run on, the run exits with code 1, its last act is the message on
standard error, and no encoder is invoked, no output file is created or truncated
and nothing is written to the output file or to standard output. -/
theorem validation_failure_writes_nothing (w : World T X) (f : Flags) (d : T) (e : String)
    (hhelp : f.flagPrintUsage = false)
    (hrun : Event.validate d ∈ (main w f).trace)
    (hval : w.validate d = some e) :
    (main w f).exitCode = 1 ∧
    (∀ ev ∈ (main w f).trace, ev.isMarshal = false ∧ ev.isOutput = false) ∧
    (main w f).trace.getLast? = some (Event.stderr "error validating document: %s\n" [e]) := by
  by_cases hin : f.flagInputFile = ""
  · simp [main, hhelp, hin, errExit] at hrun
  · cases habs : w.abs f.flagInputFile with
    | error err => simp [main, hhelp, hin, habs, errExit] at hrun
    | ok p =>
      cases hload : w.loadFromFile p with
      | error err => simp [main, hhelp, hin, habs, hload, errExit] at hrun
      | ok d0 =>
        cases hv : w.validate (w.internalizeRefs d0 nameResolver) with
        | some err =>
          simp only [main, hhelp, hin, habs, hload, hv, errExit, Bool.false_eq_true,
            if_false] at hrun ⊢
          have hd : d = w.internalizeRefs d0 nameResolver := by simpa using hrun
          subst hd
          rw [hv] at hval
          cases hval
          simp [withNewline_validating, Event.isMarshal, Event.isOutput]
        | none =>
          exfalso
          simp only [main, hhelp, hin, habs, hload, hv, Bool.false_eq_true, if_false] at hrun
          rw [encodeAndWrite_eq] at hrun
          simp only [List.mem_append, List.mem_cons, List.mem_singleton, List.cons_append,
            List.nil_append, List.not_mem_nil, or_false] at hrun
          rcases hrun with h | h | h | h | h
          · cases h
          · cases h
          · cases h
          · cases h
            rw [hv] at hval
            cases hval
          · rcases encodeAndWrite_events w f _ _ h with h2 | h2 | h2
            · cases h2
            · cases h2
            · exact h2

/-- The shape of what the encode-and-write part adds, by output format. -/
theorem encodeAndWrite_shape (w : World T X) (f : Flags) (doc : T) :
    (f.flagOutputFormat = "yaml" ∧
      (encodeAndWrite w f [] doc).trace =
        Event.marshalYAML doc :: (writeOutput w f [] (marshalYAML w (some doc)).1).trace ∧
      (encodeAndWrite w f [] doc).exitCode =
        (writeOutput w f [] (marshalYAML w (some doc)).1).exitCode) ∨
    (f.flagOutputFormat ≠ "yaml" ∧ f.flagOutputFormat = "json" ∧
      (encodeAndWrite w f [] doc).trace =
        Event.marshalJSON doc :: (writeOutput w f [] (marshalJSON w (some doc)).1).trace ∧
      (encodeAndWrite w f [] doc).exitCode =
        (writeOutput w f [] (marshalJSON w (some doc)).1).exitCode) ∨
    (f.flagOutputFormat ≠ "yaml" ∧ f.flagOutputFormat ≠ "json" ∧
      encodeAndWrite w f [] doc =
        ⟨[Event.stderr "unsupported output format: %s\n" [f.flagOutputFormat]], 1⟩) := by
  by_cases hy : f.flagOutputFormat = "yaml"
  · left
    have h : encodeAndWrite w f [] doc =
        writeOutput w f [Event.marshalYAML doc] (marshalYAML w (some doc)).1 := by
      simp only [encodeAndWrite, if_pos hy, List.nil_append]
    refine ⟨hy, ?_, ?_⟩
    · rw [h, writeOutput_eq w f [Event.marshalYAML doc]]; rfl
    · rw [h, writeOutput_eq w f [Event.marshalYAML doc]]
  · by_cases hj : f.flagOutputFormat = "json"
    · right; left
      have h : encodeAndWrite w f [] doc =
          writeOutput w f [Event.marshalJSON doc] (marshalJSON w (some doc)).1 := by
        simp only [encodeAndWrite, if_neg hy, if_pos hj, List.nil_append]
      refine ⟨hy, hj, ?_, ?_⟩
      · rw [h, writeOutput_eq w f [Event.marshalJSON doc]]; rfl
      · rw [h, writeOutput_eq w f [Event.marshalJSON doc]]
    · right; right
      refine ⟨hy, hj, ?_⟩
      simp [encodeAndWrite, hy, hj, errExit, withNewline_format]

/-- A run that got past validation: `main` is the encode-and-write part run after
the four calls that led there. -/
theorem main_of_valid (w : World T X) (f : Flags) (p : String) (d0 : T)
    (hhelp : f.flagPrintUsage = false) (hin : f.flagInputFile ≠ "")
    (habs : w.abs f.flagInputFile = Except.ok p) (hload : w.loadFromFile p = Except.ok d0)
    (hval : w.validate (w.internalizeRefs d0 nameResolver) = none) :
    main w f =
      ⟨[Event.absPath f.flagInputFile, Event.load p, Event.internalize d0,
          Event.validate (w.internalizeRefs d0 nameResolver)] ++
          (encodeAndWrite w f [] (w.internalizeRefs d0 nameResolver)).trace,
        (encodeAndWrite w f [] (w.internalizeRefs d0 nameResolver)).exitCode⟩ := by
  simp only [main, hhelp, hin, habs, hload, hval, Bool.false_eq_true, if_false]
  rw [encodeAndWrite_eq]
  simp

theorem not_isMarshal_of_writeOutput (w : World T X) (f : Flags) (b : Bytes) :
    ∀ ev ∈ (writeOutput w f [] b).trace, ev.isMarshal = false := by
  intro ev hev
  have := writeOutput_events w f b ev hev
  cases ev <;> simp_all [IsWriteOutputEvent, Event.isMarshal]

/-- C6. The default of the format flag is "yaml"; and in a run where help is not
requested and loading and validation succeed, the value "yaml" invokes
`marshalYAML` (and not `marshalJSON`) on the internalized document and writes its
bytes, "json" invokes `marshalJSON` (and not `marshalYAML`), and any other value
ends the run with exit code 1 right after validation: no encoder is invoked and
nothing is created or written. -/
theorem output_format_dispatch (w : World T X) (f : Flags) (p : String) (d0 : T)
    (hhelp : f.flagPrintUsage = false) (hin : f.flagInputFile ≠ "")
    (habs : w.abs f.flagInputFile = Except.ok p) (hload : w.loadFromFile p = Except.ok d0)
    (hval : w.validate (w.internalizeRefs d0 nameResolver) = none) :
    defaultFlags.flagOutputFormat = "yaml" ∧
    (f.flagOutputFormat = "yaml" →
      main w f = writeOutput w f
        [Event.absPath f.flagInputFile, Event.load p, Event.internalize d0,
          Event.validate (w.internalizeRefs d0 nameResolver),
          Event.marshalYAML (w.internalizeRefs d0 nameResolver)]
        (marshalYAML w (some (w.internalizeRefs d0 nameResolver))).1 ∧
      ∀ d, Event.marshalJSON d ∉ (main w f).trace) ∧
    (f.flagOutputFormat = "json" →
      main w f = writeOutput w f
        [Event.absPath f.flagInputFile, Event.load p, Event.internalize d0,
          Event.validate (w.internalizeRefs d0 nameResolver),
          Event.marshalJSON (w.internalizeRefs d0 nameResolver)]
        (marshalJSON w (some (w.internalizeRefs d0 nameResolver))).1 ∧
      ∀ d, Event.marshalYAML d ∉ (main w f).trace) ∧
    (f.flagOutputFormat ≠ "yaml" → f.flagOutputFormat ≠ "json" →
      main w f =
        ⟨[Event.absPath f.flagInputFile, Event.load p, Event.internalize d0,
            Event.validate (w.internalizeRefs d0 nameResolver),
            Event.stderr "unsupported output format: %s\n" [f.flagOutputFormat]], 1⟩ ∧
      ∀ ev ∈ (main w f).trace, ev.isMarshal = false ∧ ev.isOutput = false) := by
  have hmain := main_of_valid w f p d0 hhelp hin habs hload hval
  refine ⟨rfl, ?_, ?_, ?_⟩
  · intro hy
    rcases encodeAndWrite_shape w f (w.internalizeRefs d0 nameResolver) with
      ⟨_, ht, hc⟩ | ⟨hny, _⟩ | ⟨hny, _⟩
    · refine ⟨?_, ?_⟩
      · rw [hmain, ht, hc]
        conv_rhs => rw [writeOutput_eq]
        simp
      · intro d hd
        rw [hmain, ht] at hd
        simp only [List.cons_append, List.nil_append, List.mem_cons] at hd
        rcases hd with h | h | h | h | h | h
        · cases h
        · cases h
        · cases h
        · cases h
        · cases h
        · have := not_isMarshal_of_writeOutput w f _ _ h
          simp [Event.isMarshal] at this
    · exact absurd hy hny
    · exact absurd hy hny
  · intro hj
    rcases encodeAndWrite_shape w f (w.internalizeRefs d0 nameResolver) with
      ⟨hy, _⟩ | ⟨_, _, ht, hc⟩ | ⟨_, hnj, _⟩
    · rw [hj] at hy; exact absurd hy (by decide)
    · refine ⟨?_, ?_⟩
      · rw [hmain, ht, hc]
        conv_rhs => rw [writeOutput_eq]
        simp
      · intro d hd
        rw [hmain, ht] at hd
        simp only [List.cons_append, List.nil_append, List.mem_cons] at hd
        rcases hd with h | h | h | h | h | h
        · cases h
        · cases h
        · cases h
        · cases h
        · cases h
        · have := not_isMarshal_of_writeOutput w f _ _ h
          simp [Event.isMarshal] at this
    · exact absurd hj hnj
  · intro hny hnj
    rcases encodeAndWrite_shape w f (w.internalizeRefs d0 nameResolver) with
      ⟨hy, _⟩ | ⟨_, hj, _⟩ | ⟨_, _, he⟩
    · exact absurd hy hny
    · exact absurd hj hnj
    · have hm : main w f =
          ⟨[Event.absPath f.flagInputFile, Event.load p, Event.internalize d0,
              Event.validate (w.internalizeRefs d0 nameResolver),
              Event.stderr "unsupported output format: %s\n" [f.flagOutputFormat]], 1⟩ := by
        rw [hmain, he]; simp
      refine ⟨hm, ?_⟩
      rw [hm]
      simp [Event.isMarshal, Event.isOutput]

/-- A run of C6 with the format flag set to "YAML": exit code 1, no encoder, no output. -/
theorem output_format_dispatch_witness :
    main (demoWorld none (.ok [1, 2]) (.ok [3])) ⟨"api.yaml", "", "YAML", false⟩ =
      ⟨[Event.absPath "api.yaml", Event.load "/work/api.yaml", Event.internalize "api",
          Event.validate "api+refs", Event.stderr "unsupported output format: %s\n" ["YAML"]],
        1⟩ :=
  ((output_format_dispatch (demoWorld none (.ok [1, 2]) (.ok [3]))
      ⟨"api.yaml", "", "YAML", false⟩ "/work/api.yaml" "api" rfl (by decide) rfl rfl rfl).2.2.2 (by decide) (by decide)).1

/-- A run of C3: validation reports "bad", the run stops with exit code 1. -/
theorem validation_failure_writes_nothing_witness :
    (main (demoWorld (some "bad") (.ok [1, 2]) (.ok [3]))
      ⟨"api.yaml", "out.yaml", "yaml", false⟩).exitCode = 1 :=
  (validation_failure_writes_nothing (demoWorld (some "bad") (.ok [1, 2]) (.ok [3]))
    ⟨"api.yaml", "out.yaml", "yaml", false⟩ "api+refs" "bad" rfl (by decide) rfl).1

theorem stages_append (a b : List (Event T)) : stages (a ++ b) = stages a ++ stages b := by
  simp [stages]

theorem stages_writeOutput (w : World T X) (f : Flags) (b : Bytes) :
    stages (writeOutput w f [] b).trace <+: [Stage.write] := by
  unfold writeOutput
  split
  · split <;> simp [errExit, stages, Event.stage]
  · split
    · simp [errExit, stages, Event.stage]
    · split
      · simp [errExit, stages, Event.stage]
      · split
        · simp [errExit, stages, Event.stage]
        · split <;> simp [errExit, stages, Event.stage]

theorem writeOutput_success (w : World T X) (f : Flags) (b : Bytes)
    (h : DestinationSucceeds w f b) :
    (writeOutput w f [] b).exitCode = 0 ∧
    stages (writeOutput w f [] b).trace = [Stage.write] ∧
    (∀ dest b2, Event.write dest b2 ∈ (writeOutput w f [] b).trace → b2 = b) ∧
    ∃ dest, Event.write dest b ∈ (writeOutput w f [] b).trace := by
  rcases h with ⟨ho, hw⟩ | ⟨ho, q, ha, hc, hw, hcl⟩
  · simp [writeOutput, ho, hw, stages, Event.stage]
  · simp [writeOutput, ho, ha, hc, hw, hcl, stages, Event.stage]

/-- Runs that do not get past validation: help, a missing input path, a path, load
or validation failure.  They invoke no encoder and touch no output. -/
theorem main_of_not_valid (w : World T X) (f : Flags)
    (h : ¬ ∃ p d0, f.flagPrintUsage = false ∧ f.flagInputFile ≠ "" ∧
      w.abs f.flagInputFile = Except.ok p ∧ w.loadFromFile p = Except.ok d0 ∧
      w.validate (w.internalizeRefs d0 nameResolver) = none) :
    stages (main w f).trace <+: [Stage.load, Stage.internalize, Stage.validate] ∧
    (∀ ev ∈ (main w f).trace, ev.isMarshal = false ∧ ev.isOutput = false) ∧
    (∀ d, Event.validate d ∈ (main w f).trace →
      ∃ p d0, w.loadFromFile p = Except.ok d0 ∧ d = w.internalizeRefs d0 nameResolver ∧
        [Event.load p, Event.internalize d0, Event.validate d] <:+: (main w f).trace) := by
  by_cases hhelp : f.flagPrintUsage = true
  · simp [main, hhelp, stages, Event.stage, Event.isMarshal, Event.isOutput]
  · have hhelp : f.flagPrintUsage = false := by simpa using hhelp
    by_cases hin : f.flagInputFile = ""
    · simp [main, hhelp, hin, errExit, stages, Event.stage, Event.isMarshal, Event.isOutput]
    · cases habs : w.abs f.flagInputFile with
      | error err =>
        simp [main, hhelp, hin, habs, errExit, stages, Event.stage, Event.isMarshal,
          Event.isOutput]
      | ok p =>
        cases hload : w.loadFromFile p with
        | error err =>
          simp [main, hhelp, hin, habs, hload, errExit, stages, Event.stage, Event.isMarshal,
            Event.isOutput]
        | ok d0 =>
          cases hv : w.validate (w.internalizeRefs d0 nameResolver) with
          | none => exact absurd ⟨p, d0, hhelp, hin, habs, hload, hv⟩ h
          | some err =>
            simp only [main, hhelp, hin, habs, hload, hv, errExit, Bool.false_eq_true,
              if_false]
            refine ⟨by simp [stages, Event.stage], by simp [Event.isMarshal, Event.isOutput],
              ?_⟩
            intro d hd
            have hd2 : d = w.internalizeRefs d0 nameResolver := by simpa using hd
            subst hd2
            exact ⟨p, d0, hload, rfl, [Event.absPath f.flagInputFile],
              [Event.stderr (withNewline "error validating document: %s") [err]], rfl⟩

/-- C5. In every run the stages that execute form an initial segment of
load, internalize, validate, serialize, write (so each runs at most once and never
before its predecessor); a document is validated only as the result of
internalizing the document just loaded; an encoder is invoked only directly after
a validation that returned no error, on the validated document; and when every
stage succeeds all five stages run, the exit code is 0 and every write carries
exactly the bytes the selected encoder returned. -/
theorem stages_run_once_in_order (w : World T X) (f : Flags) :
    stages (main w f).trace <+: pipelineOrder ∧
    (∀ d, Event.validate d ∈ (main w f).trace →
      ∃ p d0, w.loadFromFile p = Except.ok d0 ∧ d = w.internalizeRefs d0 nameResolver ∧
        [Event.load p, Event.internalize d0, Event.validate d] <:+: (main w f).trace) ∧
    (∀ ev ∈ (main w f).trace, ev.isMarshal = true →
      ∃ d, (ev = Event.marshalYAML d ∨ ev = Event.marshalJSON d) ∧ w.validate d = none ∧
        [Event.validate d, ev] <:+: (main w f).trace) ∧
    (∀ p d0 b, f.flagPrintUsage = false → f.flagInputFile ≠ "" →
      w.abs f.flagInputFile = Except.ok p → w.loadFromFile p = Except.ok d0 →
      w.validate (w.internalizeRefs d0 nameResolver) = none →
      ((f.flagOutputFormat = "yaml" ∧
          marshalYAML w (some (w.internalizeRefs d0 nameResolver)) = (b, none)) ∨
        (f.flagOutputFormat = "json" ∧
          marshalJSON w (some (w.internalizeRefs d0 nameResolver)) = (b, none))) →
      DestinationSucceeds w f b →
      stages (main w f).trace = pipelineOrder ∧ (main w f).exitCode = 0 ∧
      (∀ dest b2, Event.write dest b2 ∈ (main w f).trace → b2 = b) ∧
      ∃ dest, Event.write dest b ∈ (main w f).trace) := by
  by_cases hvalid : ∃ p d0, f.flagPrintUsage = false ∧ f.flagInputFile ≠ "" ∧
      w.abs f.flagInputFile = Except.ok p ∧ w.loadFromFile p = Except.ok d0 ∧
      w.validate (w.internalizeRefs d0 nameResolver) = none
  · obtain ⟨p, d0, hhelp, hin, habs, hload, hval⟩ := hvalid
    have hmain := main_of_valid w f p d0 hhelp hin habs hload hval
    have hW := fun b => stages_writeOutput w f b
    have hWe := fun b => writeOutput_events w f b
    refine ⟨?_, ?_, ?_, ?_⟩
    · rw [hmain]
      simp only [stages_append]
      show [Stage.load, Stage.internalize, Stage.validate] ++ _ <+:
        [Stage.load, Stage.internalize, Stage.validate] ++ [Stage.serialize, Stage.write]
      rw [List.prefix_append_right_inj]
      rcases encodeAndWrite_shape w f (w.internalizeRefs d0 nameResolver) with
        ⟨_, ht, _⟩ | ⟨_, _, ht, _⟩ | ⟨_, _, he⟩
      · rw [ht]
        show [Stage.serialize] ++ stages _ <+: [Stage.serialize] ++ [Stage.write]
        rw [List.prefix_append_right_inj]
        exact hW _
      · rw [ht]
        show [Stage.serialize] ++ stages _ <+: [Stage.serialize] ++ [Stage.write]
        rw [List.prefix_append_right_inj]
        exact hW _
      · rw [he]
        simp [stages, Event.stage]
    · intro d hd
      rw [hmain] at hd ⊢
      simp only [List.cons_append, List.nil_append, List.mem_cons] at hd
      have key : d = w.internalizeRefs d0 nameResolver := by
        rcases hd with h | h | h | h | h
        · cases h
        · cases h
        · cases h
        · cases h; rfl
        · rcases encodeAndWrite_events w f _ _ h with h2 | h2 | h2
          · cases h2
          · cases h2
          · exact absurd h2 (by simp [IsWriteOutputEvent])
      subst key
      exact ⟨p, d0, hload, rfl, [Event.absPath f.flagInputFile],
        (encodeAndWrite w f [] (w.internalizeRefs d0 nameResolver)).trace, rfl⟩
    · intro ev hev hm
      rw [hmain] at hev ⊢
      simp only [List.cons_append, List.nil_append, List.mem_cons] at hev
      rcases hev with h | h | h | h | h
      · subst h; simp [Event.isMarshal] at hm
      · subst h; simp [Event.isMarshal] at hm
      · subst h; simp [Event.isMarshal] at hm
      · subst h; simp [Event.isMarshal] at hm
      · rcases encodeAndWrite_shape w f (w.internalizeRefs d0 nameResolver) with
          ⟨_, ht, _⟩ | ⟨_, _, ht, _⟩ | ⟨_, _, he⟩
        · rw [ht] at h ⊢
          rcases List.mem_cons.1 h with h2 | h2
          · subst h2
            exact ⟨_, Or.inl rfl, hval,
              [Event.absPath f.flagInputFile, Event.load p, Event.internalize d0],
              (writeOutput w f [] (marshalYAML w (some (w.internalizeRefs d0 nameResolver))).1).trace,
              rfl⟩
          · have := not_isMarshal_of_writeOutput w f _ _ h2
            rw [this] at hm; cases hm
        · rw [ht] at h ⊢
          rcases List.mem_cons.1 h with h2 | h2
          · subst h2
            exact ⟨_, Or.inr rfl, hval,
              [Event.absPath f.flagInputFile, Event.load p, Event.internalize d0],
              (writeOutput w f [] (marshalJSON w (some (w.internalizeRefs d0 nameResolver))).1).trace,
              rfl⟩
          · have := not_isMarshal_of_writeOutput w f _ _ h2
            rw [this] at hm; cases hm
        · rw [he] at h
          simp at h
          subst h
          simp [Event.isMarshal] at hm
    · intro p2 d02 b _ _ habs2 hload2 _ henc hdest
      have hp : p2 = p := by
        rw [habs] at habs2; cases habs2; rfl
      subst hp
      have hd : d02 = d0 := by
        rw [hload] at hload2; cases hload2; rfl
      subst hd
      obtain ⟨hcode, hst, honly, dest, hmem⟩ := writeOutput_success w f b hdest
      rcases encodeAndWrite_shape w f (w.internalizeRefs d02 nameResolver) with
        ⟨hy, ht, hc⟩ | ⟨hny, _, ht, hc⟩ | ⟨hny, hnj, _⟩
      · have hb : (marshalYAML w (some (w.internalizeRefs d02 nameResolver))).1 = b := by
          rcases henc with ⟨_, h⟩ | ⟨hj, _⟩
          · rw [h]
          · rw [hj] at hy; exact absurd hy (by decide)
        rw [hb] at ht hc
        rw [hmain, ht, hc]
        refine ⟨?_, hcode, ?_, dest, ?_⟩
        · simp only [stages_append]
          show [Stage.load, Stage.internalize, Stage.validate] ++
            ([Stage.serialize] ++ stages _) = _
          rw [hst]; rfl
        · intro dest2 b2 h2
          simp only [List.cons_append, List.nil_append, List.mem_cons] at h2
          rcases h2 with h | h | h | h | h | h
          · cases h
          · cases h
          · cases h
          · cases h
          · cases h
          · exact honly _ _ h
        · simp [hmem]
      · have hb : (marshalJSON w (some (w.internalizeRefs d02 nameResolver))).1 = b := by
          rcases henc with ⟨hy, _⟩ | ⟨_, h⟩
          · exact absurd hy hny
          · rw [h]
        rw [hb] at ht hc
        rw [hmain, ht, hc]
        refine ⟨?_, hcode, ?_, dest, ?_⟩
        · simp only [stages_append]
          show [Stage.load, Stage.internalize, Stage.validate] ++
            ([Stage.serialize] ++ stages _) = _
          rw [hst]; rfl
        · intro dest2 b2 h2
          simp only [List.cons_append, List.nil_append, List.mem_cons] at h2
          rcases h2 with h | h | h | h | h | h
          · cases h
          · cases h
          · cases h
          · cases h
          · cases h
          · exact honly _ _ h
        · simp [hmem]
      · rcases henc with ⟨hy, _⟩ | ⟨hj, _⟩
        · exact absurd hy hny
        · exact absurd hj hnj
  · obtain ⟨h1, h2, h3⟩ := main_of_not_valid w f hvalid
    refine ⟨?_, h3, ?_, ?_⟩
    · exact h1.trans ⟨[Stage.serialize, Stage.write], rfl⟩
    · intro ev hev hm
      rw [(h2 ev hev).1] at hm; cases hm
    · intro p d0 b hhelp hin habs hload hval _ _
      exact absurd ⟨p, d0, hhelp, hin, habs, hload, hval⟩ hvalid

/-- C5 at a run where every stage succeeds (`-i api.yaml -o out.yaml -f yaml`). -/
theorem stages_run_once_in_order_witness :
    stages (main (demoWorld none (.ok [1, 2]) (.ok [3]))
      ⟨"api.yaml", "out.yaml", "yaml", false⟩).trace = pipelineOrder ∧
    (main (demoWorld none (.ok [1, 2]) (.ok [3]))
      ⟨"api.yaml", "out.yaml", "yaml", false⟩).exitCode = 0 :=
  have h := (stages_run_once_in_order (demoWorld none (.ok [1, 2]) (.ok [3]))
    ⟨"api.yaml", "out.yaml", "yaml", false⟩).2.2.2 "/work/api.yaml" "api" [1, 2] rfl
    (by decide) rfl rfl rfl (Or.inl ⟨rfl, rfl⟩)
    (Or.inr ⟨by decide, "/work/out.yaml", rfl, rfl, rfl, rfl⟩)
  ⟨h.1, h.2.1⟩

/-- The full trace of a run whose YAML encoder fails ("boom") after a successful
load and validation, with `-o out.yaml`: `marshalYAML` returns the error, the output
file is created, the empty `b` is written to it, and the exit code is 0. -/
theorem trace_of_failed_encoder_run :
    marshalYAML (demoWorld none (.error "boom") (.ok [3])) (some "api+refs") =
        ([], some "boom") ∧
    main (demoWorld none (.error "boom") (.ok [3])) ⟨"api.yaml", "out.yaml", "yaml", false⟩ =
      ⟨[Event.absPath "api.yaml", Event.load "/work/api.yaml", Event.internalize "api",
          Event.validate "api+refs", Event.marshalYAML "api+refs",
          Event.absPath "out.yaml", Event.create "/work/out.yaml",
          Event.write (Dest.file "/work/out.yaml") [], Event.close "/work/out.yaml"],
        0⟩ := by
  decide

theorem marshalYAML_error_bytes (w : World T X) (doc : Option T) (e : String)
    (h : (marshalYAML w doc).2 = some e) : (marshalYAML w doc).1 = [] := by
  cases doc with
  | none => rfl
  | some d =>
    simp only [marshalYAML] at h ⊢
    cases h1 : w.docMarshalYAML d with
    | error err => simp [h1]
    | ok x =>
      cases h2 : w.yamlEncode x with
      | error err => simp [h1, h2]
      | ok buffer => simp [h1, h2] at h

theorem marshalJSON_error_bytes (w : World T X) (doc : Option T) (e : String)
    (h : (marshalJSON w doc).2 = some e) : (marshalJSON w doc).1 = [] := by
  cases doc with
  | none => rfl
  | some d =>
    simp only [marshalJSON] at h ⊢
    cases h1 : w.docMarshalYAML d with
    | error err => simp [h1]
    | ok x =>
      cases h2 : w.jsonEncode x with
      | error err => simp [h1, h2]
      | ok buffer => simp [h1, h2] at h

theorem stderr_not_mem_writeOutput_success (w : World T X) (f : Flags) (b : Bytes)
    (h : DestinationSucceeds w f b) :
    ∀ m args, Event.stderr m args ∉ (writeOutput w f [] b).trace := by
  intro m args
  rcases h with ⟨ho, hw⟩ | ⟨ho, q, ha, hc, hw, hcl⟩
  · simp [writeOutput, ho, hw]
  · simp [writeOutput, ho, ha, hc, hw, hcl]

/-- C4, what the code does instead.  In a run where loading and validation
succeed, the selected encoder returns an error and the destination accepts an
empty write, the error is dropped: nothing is printed on standard error, the
empty `b` is written to the destination and the exit code is 0. -/
theorem encoder_error_is_dropped (w : World T X) (f : Flags) (p : String) (d0 : T)
    (e : String)
    (hhelp : f.flagPrintUsage = false) (hin : f.flagInputFile ≠ "")
    (habs : w.abs f.flagInputFile = Except.ok p) (hload : w.loadFromFile p = Except.ok d0)
    (hval : w.validate (w.internalizeRefs d0 nameResolver) = none)
    (henc : (f.flagOutputFormat = "yaml" ∧
        (marshalYAML w (some (w.internalizeRefs d0 nameResolver))).2 = some e) ∨
      (f.flagOutputFormat = "json" ∧
        (marshalJSON w (some (w.internalizeRefs d0 nameResolver))).2 = some e))
    (hdest : DestinationSucceeds w f []) :
    (main w f).exitCode = 0 ∧
    (∃ dest, Event.write dest [] ∈ (main w f).trace) ∧
    ∀ m args, Event.stderr m args ∉ (main w f).trace := by
  have hmain := main_of_valid w f p d0 hhelp hin habs hload hval
  obtain ⟨hcode, _, _, dest, hmem⟩ := writeOutput_success w f [] hdest
  have hno := stderr_not_mem_writeOutput_success w f [] hdest
  rcases encodeAndWrite_shape w f (w.internalizeRefs d0 nameResolver) with
    ⟨hy, ht, hc⟩ | ⟨hny, hj, ht, hc⟩ | ⟨hny, hnj, _⟩
  · have hb : (marshalYAML w (some (w.internalizeRefs d0 nameResolver))).1 = [] := by
      rcases henc with ⟨_, h⟩ | ⟨hj, _⟩
      · exact marshalYAML_error_bytes _ _ _ h
      · rw [hj] at hy; exact absurd hy (by decide)
    rw [hb] at ht hc
    rw [hmain, ht, hc]
    refine ⟨hcode, ⟨dest, by simp [hmem]⟩, ?_⟩
    intro m args hm
    simp only [List.cons_append, List.nil_append, List.mem_cons] at hm
    rcases hm with h | h | h | h | h | h
    · cases h
    · cases h
    · cases h
    · cases h
    · cases h
    · exact hno m args h
  · have hb : (marshalJSON w (some (w.internalizeRefs d0 nameResolver))).1 = [] := by
      rcases henc with ⟨hy, _⟩ | ⟨_, h⟩
      · exact absurd hy hny
      · exact marshalJSON_error_bytes _ _ _ h
    rw [hb] at ht hc
    rw [hmain, ht, hc]
    refine ⟨hcode, ⟨dest, by simp [hmem]⟩, ?_⟩
    intro m args hm
    simp only [List.cons_append, List.nil_append, List.mem_cons] at hm
    rcases hm with h | h | h | h | h | h
    · cases h
    · cases h
    · cases h
    · cases h
    · cases h
    · exact hno m args h
  · rcases henc with ⟨hy, _⟩ | ⟨hj, _⟩
    · exact absurd hy hny
    · exact absurd hj hnj

/-- C4 at the failing input: `-i api.yaml -o out.yaml -f yaml` with a YAML encoder
that fails.  The run exits with code 0. -/
theorem encoder_error_is_dropped_witness :
    (main (demoWorld none (.error "boom") (.ok [3]))
      ⟨"api.yaml", "out.yaml", "yaml", false⟩).exitCode = 0 :=
  (encoder_error_is_dropped (demoWorld none (.error "boom") (.ok [3]))
    ⟨"api.yaml", "out.yaml", "yaml", false⟩ "/work/api.yaml" "api" "boom" rfl (by decide)
    rfl rfl rfl (Or.inl ⟨rfl, rfl⟩)
    (Or.inr ⟨by decide, "/work/out.yaml", rfl, rfl, rfl, rfl⟩)).1

end Pipeline




/-! ## The name resolver -/

section Resolver

theorem nameResolver_eq {T : Type} (t : T) (r : GoString) :
    nameResolver t ⟨r⟩ = TrimSuffix (Base r) (Ext r) := rfl

/-- The name of `<dir><stem>.<ext>` is `<stem>`. -/
theorem nameResolver_stem_ext {T : Type} (t : T) (dir stem ext : GoString)
    (hd : IsDirPrefix dir) (hs : '/' ∉ stem) (he1 : '/' ∉ ext) (he2 : '.' ∉ ext) :
    nameResolver t ⟨dir ++ stem ++ '.' :: ext⟩ = stem := by
  have hclean : '/' ∉ stem ++ '.' :: ext := by
    simp only [List.mem_append, List.mem_cons, not_or]
    exact ⟨hs, by decide, he1⟩
  have hne : stem ++ '.' :: ext ≠ [] := by simp
  have hex : ∃ c ∈ stem ++ '.' :: ext, c ≠ '/' :=
    ⟨'.', by simp, by decide⟩
  rw [nameResolver_eq, List.append_assoc, Base_append_dirPrefix _ _ hd hex,
    Base_of_clean _ hne hclean, ← List.append_assoc, Ext_stem_dot_ext _ _ he1 he2,
    TrimSuffix_append]

/-- The name of `<pre>/<seg>`, for a segment without dot, is `<seg>`. -/
theorem nameResolver_last_segment {T : Type} (t : T) (pre seg : GoString)
    (hne : seg ≠ []) (hs : '/' ∉ seg) (hdot : '.' ∉ seg) :
    nameResolver t ⟨pre ++ '/' :: seg⟩ = seg := by
  have hd : IsDirPrefix (pre ++ ['/']) := Or.inr (by simp)
  have hex : ∃ c ∈ seg, c ≠ '/' := by
    cases seg with
    | nil => exact absurd rfl hne
    | cons c tl =>
      exact ⟨c, List.mem_cons_self _ _, fun h => hs (h ▸ List.mem_cons_self _ _)⟩
  have hsplit : pre ++ '/' :: seg = (pre ++ ['/']) ++ seg := by simp
  have hext : Ext seg = [] := by
    unfold Ext
    apply extLoop_no_dot
    intro c hc h
    exact hdot (h ▸ (by simpa using hc))
  rw [nameResolver_eq, hsplit, Base_append_dirPrefix _ _ hd hex, Base_of_clean _ hne hs,
    Ext_append_dirPrefix _ _ hd, hext]
  simp [TrimSuffix, HasSuffix]

/-- The name depends only on the last path element and what follows it: a
directory prefix in front of a non-empty file name changes nothing. -/
theorem nameResolver_dirPrefix {T : Type} (t : T) (d file frag : GoString)
    (hd : IsDirPrefix d) (hne : file ≠ []) (hf : '/' ∉ file) :
    nameResolver t ⟨d ++ file ++ frag⟩ = nameResolver t ⟨file ++ frag⟩ := by
  have hex : ∃ c ∈ file ++ frag, c ≠ '/' := by
    cases file with
    | nil => exact absurd rfl hne
    | cons c tl =>
      exact ⟨c, by simp, fun h => hf (h ▸ List.mem_cons_self _ _)⟩
  rw [nameResolver_eq, nameResolver_eq, List.append_assoc,
    Base_append_dirPrefix _ _ hd hex, Ext_append_dirPrefix _ _ hd]

/-- C1, as amended.  For a reference string that is a bare file path
`<dir><stem>.<ext>` the resolver returns the file's base name without its last
extension, `<stem>`; for `<file path>#<pointer>` with a pointer ending in
`/<segment>` (segment without dot) it returns the pointer's last segment, not the
file's base name. -/
theorem resolver_name_of_reference {T : Type} (t : T) (dir stem ext ptr seg : GoString)
    (hd : IsDirPrefix dir) (hs : '/' ∉ stem) (he1 : '/' ∉ ext) (he2 : '.' ∉ ext)
    (hseg : seg ≠ []) (hseg1 : '/' ∉ seg) (hseg2 : '.' ∉ seg) :
    nameResolver t ⟨dir ++ stem ++ '.' :: ext⟩ = stem ∧
    nameResolver t ⟨dir ++ stem ++ '.' :: ext ++ '#' :: ptr ++ '/' :: seg⟩ = seg :=
  ⟨nameResolver_stem_ext t dir stem ext hd hs he1 he2,
    nameResolver_last_segment t _ seg hseg hseg1 hseg2⟩

/-- The two examples of C1: `schemas/error.yaml` gives `error`, and
`schemas/error.yaml#/components/schemas/Error` gives `Error`. -/
theorem resolver_name_of_reference_witness :
    nameResolver () ⟨"schemas/error.yaml".toList⟩ = "error".toList ∧
    nameResolver () ⟨"schemas/error.yaml#/components/schemas/Error".toList⟩ =
      "Error".toList :=
  resolver_name_of_reference () "schemas/".toList "error".toList "yaml".toList
    "/components/schemas".toList "Error".toList (by decide) (by decide) (by decide)
    (by decide) (by decide) (by decide) (by decide)

/-- C1 as stated fails on its own second example: the referenced file of
`schemas/error.yaml#/components/schemas/Error` has base name `error`, and the
resolver returns `Error`. -/
theorem resolver_name_is_not_file_base_name :
    fileBaseName "schemas/error.yaml#/components/schemas/Error".toList = "error".toList ∧
    nameResolver () ⟨"schemas/error.yaml#/components/schemas/Error".toList⟩ ≠
      fileBaseName "schemas/error.yaml#/components/schemas/Error".toList := by
  decide

/-- C10.  For a reference string that is not empty and not made of separators
only, the resolver's name is a prefix of `Base r`, contains no `/`, is the last
segment of the local pointer built from it, and, when `r` does not end in `/`,
gives back `Base r` once `Ext r` is appended. -/
theorem resolver_name_is_single_segment {T : Type} (t : T) (r category : GoString)
    (_hne : r ≠ []) (hns : ¬ ∀ c ∈ r, c = '/') :
    nameResolver t ⟨r⟩ <+: Base r ∧
    '/' ∉ nameResolver t ⟨r⟩ ∧
    lastElement (localPointer category (nameResolver t ⟨r⟩)) = nameResolver t ⟨r⟩ ∧
    (r.getLast? ≠ some '/' → nameResolver t ⟨r⟩ ++ Ext r = Base r) := by
  have hex : ∃ c ∈ r, c ≠ '/' := by
    by_contra h
    exact hns (fun c hc => by_contra fun hne => h ⟨c, hc, hne⟩)
  have hpre : nameResolver t ⟨r⟩ <+: Base r := TrimSuffix_prefix _ _
  have hno : '/' ∉ nameResolver t ⟨r⟩ := by
    intro h
    have h2 : '/' ∈ Base r := hpre.subset h
    rw [(Base_eq_lastElement_strip r hex).1] at h2
    exact not_sep_of_mem_lastElement _ h2
  refine ⟨hpre, hno, ?_, ?_⟩
  · have hd : IsDirPrefix ("#/components/".toList ++ category ++ ['/']) :=
      Or.inr (List.getLast?_concat _)
    have hsplit : localPointer category (nameResolver t ⟨r⟩) =
        ("#/components/".toList ++ category ++ ['/']) ++ nameResolver t ⟨r⟩ := by
      simp [localPointer]
    rw [hsplit, lastElement_append_dirPrefix _ _ hd, lastElement,
      List.rtakeWhile_eq_self_iff]
    intro c hc
    have : c ≠ '/' := fun e => hno (e ▸ hc)
    simpa [IsPathSeparator] using this
  · intro hlast
    have hne : r ≠ [] := by
      obtain ⟨c, hc, _⟩ := hex
      exact List.ne_nil_of_mem hc
    rw [nameResolver_eq, Base_eq_lastElement r hne hlast]
    exact TrimSuffix_append_of_suffix _ _ (Ext_suffix_lastElement r)

/-- C10 at `schemas/error.v1.yaml`: the name is `error.v1`. -/
theorem resolver_name_is_single_segment_witness :
    '/' ∉ nameResolver () ⟨"schemas/error.v1.yaml".toList⟩ ∧
    nameResolver () ⟨"schemas/error.v1.yaml".toList⟩ ++ Ext "schemas/error.v1.yaml".toList =
      Base "schemas/error.v1.yaml".toList :=
  have h := resolver_name_is_single_segment () "schemas/error.v1.yaml".toList
    "schemas".toList (by decide) (by decide)
  ⟨h.2.1, h.2.2.2 (by decide)⟩

end Resolver

/-! ## The specification's Internalizer with the resolver of `main` -/

section Internalize

theorem digitChar_toNat (d : Nat) (h : d < 10) : (Nat.digitChar d).toNat - 48 = d := by
  interval_cases d <;> rfl

theorem decimalValue_decimalRev (fuel n : Nat) (h : n < fuel) :
    decimalValue (decimalRev fuel n) = n := by
  induction fuel generalizing n with
  | zero => omega
  | succ fuel ih =>
    unfold decimalRev
    split
    · rename_i h10
      simp [decimalValue, digitChar_toNat n h10]
    · rename_i h10
      have hdiv : n / 10 < fuel := by omega
      have hmod : n % 10 < 10 := Nat.mod_lt _ (by decide)
      simp only [decimalValue, digitChar_toNat _ hmod, ih _ hdiv]
      omega

theorem decimal_injective : Function.Injective decimal := by
  intro a b h
  have h2 : decimalRev (a + 1) a = decimalRev (b + 1) b := List.reverse_injective h
  have h3 := congrArg decimalValue h2
  rwa [decimalValue_decimalRev _ _ (Nat.lt_succ_self a),
    decimalValue_decimalRev _ _ (Nat.lt_succ_self b)] at h3

/-- A name `disambiguate` settles on is free and is the candidate with a numeric suffix. -/
theorem disambiguate_some (taken : List GoString) (cand : GoString) (tries n : Nat)
    (name : GoString) (h : disambiguate taken cand tries n = some name) :
    name ∉ taken ∧ ∃ k, n ≤ k ∧ name = cand ++ decimal k := by
  induction tries generalizing n with
  | zero => simp [disambiguate] at h
  | succ tries ih =>
    unfold disambiguate at h
    split at h
    · obtain ⟨h1, k, hk, h2⟩ := ih (n + 1) h
      exact ⟨h1, k, by omega, h2⟩
    · rename_i hfree
      cases h
      exact ⟨hfree, n, le_refl n, rfl⟩

/-- When `disambiguate` gives up, every name it tried was taken. -/
theorem disambiguate_none (taken : List GoString) (cand : GoString) (tries n : Nat)
    (h : disambiguate taken cand tries n = none) :
    ∀ i, i < tries → cand ++ decimal (n + i) ∈ taken := by
  induction tries generalizing n with
  | zero => intro i hi; omega
  | succ tries ih =>
    unfold disambiguate at h
    split at h
    · rename_i htaken
      intro i hi
      cases i with
      | zero => simpa using htaken
      | succ i =>
        have := ih (n + 1) h i (by omega)
        have e : n + 1 + i = n + (i + 1) := by omega
        rwa [e] at this
    · cases h

/-- With more tries than names taken, `disambiguate` converges. -/
theorem disambiguate_converges (taken : List GoString) (cand : GoString) (tries n : Nat)
    (h : taken.length < tries) : ∃ name, disambiguate taken cand tries n = some name := by
  cases hd : disambiguate taken cand tries n with
  | some name => exact ⟨name, rfl⟩
  | none =>
    exfalso
    have hall := disambiguate_none taken cand tries n hd
    have hnodup : ((List.range tries).map (fun i => cand ++ decimal (n + i))).Nodup := by
      apply List.Nodup.map _ (List.nodup_range tries)
      intro i j hij
      have h1 : decimal (n + i) = decimal (n + j) := List.append_cancel_left hij
      have h2 := decimal_injective h1
      omega
    have hsub : (List.range tries).map (fun i => cand ++ decimal (n + i)) ⊆ taken := by
      intro x hx
      obtain ⟨i, hi, rfl⟩ := List.mem_map.1 hx
      exact hall i (List.mem_range.1 hi)
    have hle := (List.subperm_of_subset hnodup hsub).length_le
    simp at hle
    omega

/-- The first suffix is taken when it is free. -/
theorem disambiguate_first (taken : List GoString) (cand : GoString) (tries n : Nat)
    (h : cand ++ decimal n ∉ taken) :
    disambiguate taken cand (tries + 1) n = some (cand ++ decimal n) := by
  simp [disambiguate, h]

theorem lookup_eq_none_iff_not_mem (reg : List (GoString × Component)) (c : GoString) :
    reg.lookup c = none ↔ c ∉ reg.map Prod.fst := by
  rw [List.lookup_eq_none_iff]
  constructor
  · intro h hc
    obtain ⟨e, he, rfl⟩ := List.mem_map.1 hc
    simpa using h e he
  · intro h e he
    have : e.1 ≠ c := fun hc => h (List.mem_map.2 ⟨e, he, hc⟩)
    simpa using fun hc : c = e.1 => this hc.symm

theorem mem_of_lookup_eq_some (reg : List (GoString × Component)) (c : GoString)
    (o : Component) (h : reg.lookup c = some o) : (c, o) ∈ reg := by
  obtain ⟨l1, l2, rfl, _⟩ := List.lookup_eq_some_iff.1 h
  simp

theorem names_loaded (declared : List GoString) :
    (loaded declared).registry.map Prod.fst = declared := by
  simp [loaded, List.map_map, Function.comp_def]

theorem loaded_not_hoisted (declared : List GoString) (t : Target) :
    ∀ e ∈ (loaded declared).registry, e.2 ≠ Component.hoisted t := by
  intro e he
  simp only [loaded, List.mem_map] at he
  obtain ⟨n, _, rfl⟩ := he
  simp

/-- An external reference to an object that is neither in the VisitedSet nor in the
registry: the run does not fail, and the object is hoisted under a name that was
free, the candidate itself when that is free and the candidate with a numeric
suffix otherwise. -/
theorem internalizeReference_fresh (category : GoString) (st : InternalizeState)
    (ref : GoString) (t : Target)
    (hvis : st.visited.lookup t = none)
    (hreg : ∀ e ∈ st.registry, e.2 ≠ Component.hoisted t) :
    ∃ name,
      internalizeReference category st (Reference.ext ref t) =
        some (hoist category st t name) ∧
      name ∉ st.registry.map Prod.fst ∧
      (nameResolver () ⟨ref⟩ ∉ st.registry.map Prod.fst → name = nameResolver () ⟨ref⟩) ∧
      (nameResolver () ⟨ref⟩ ∈ st.registry.map Prod.fst →
        ∃ k, 2 ≤ k ∧ name = nameResolver () ⟨ref⟩ ++ decimal k) ∧
      (nameResolver () ⟨ref⟩ ∈ st.registry.map Prod.fst →
        nameResolver () ⟨ref⟩ ++ decimal 2 ∉ st.registry.map Prod.fst →
        name = nameResolver () ⟨ref⟩ ++ decimal 2) := by
  have hc : nameResolver st ⟨ref⟩ = nameResolver () ⟨ref⟩ := rfl
  cases hl : st.registry.lookup (nameResolver () ⟨ref⟩) with
  | none =>
    have hfree := (lookup_eq_none_iff_not_mem _ _).1 hl
    refine ⟨nameResolver () ⟨ref⟩, ?_, hfree, fun _ => rfl, fun h => absurd h hfree,
      fun h => absurd h hfree⟩
    simp only [internalizeReference, hvis, hc, hl]
  | some o =>
    have hmem : nameResolver () ⟨ref⟩ ∈ st.registry.map Prod.fst :=
      List.mem_map.2 ⟨_, mem_of_lookup_eq_some _ _ _ hl, rfl⟩
    have hne : o ≠ Component.hoisted t := hreg _ (mem_of_lookup_eq_some _ _ _ hl)
    obtain ⟨name, hname⟩ := disambiguate_converges (st.registry.map Prod.fst)
      (nameResolver () ⟨ref⟩) (st.registry.length + 1) 2 (by simp)
    obtain ⟨hfree, k, hk, hform⟩ := disambiguate_some _ _ _ _ _ hname
    refine ⟨name, ?_, hfree, fun h => absurd hmem h, fun _ => ⟨k, hk, hform⟩, ?_⟩
    · simp only [internalizeReference, hvis, hc, hl, hne, if_false, hname, Option.map_some']
    · intro _ h2
      rw [disambiguate_first _ _ _ _ h2] at hname
      exact (Option.some.inj hname).symm

/-- An external reference whose pair is in the VisitedSet: nothing is added, the
site is pointed at the name already assigned. -/
theorem internalizeReference_visited (category : GoString) (st : InternalizeState)
    (ref : GoString) (t : Target) (name : GoString)
    (hvis : st.visited.lookup t = some name) :
    internalizeReference category st (Reference.ext ref t) =
      some (st, localPointer category name) := by
  simp only [internalizeReference, hvis]

theorem localPointer_injective (category a b : GoString)
    (h : localPointer category a = localPointer category b) : a = b := by
  unfold localPointer at h
  have h2 := List.append_cancel_left h
  exact (List.cons.inj h2).2

theorem decimal_two : decimal 2 = ['2'] := by decide

theorem lookup_append_fresh (reg : List (GoString × Component)) (n : GoString)
    (o : Component) (rest : List (GoString × Component))
    (hfree : n ∉ reg.map Prod.fst) : (reg ++ (n, o) :: rest).lookup n = some o := by
  rw [List.lookup_append, (lookup_eq_none_iff_not_mem reg n).2 hfree]
  simp

/-- C2.  Two external references to objects of two different files, visited one
after the other from the loaded root document: internalization does not fail;
the two objects are hoisted under two distinct names, both free before, so the two
sites get two distinct local pointers; the registry is the loaded one followed by
the two new entries, each name denoting its own original, and its names stay
unique.  The first name is the resolver's candidate when that is free; when the
resolver returns the same candidate for both references (the files share a base
name), the second name is that candidate with a numeric suffix, `2` when free
(`error` and `error2`). -/
theorem distinct_files_distinct_names (category : GoString) (declared : List GoString)
    (r1 r2 : GoString) (t1 t2 : Target) (hfiles : t1.file ≠ t2.file) :
    ∃ n1 n2 st,
      internalize category (loaded declared) [Reference.ext r1 t1, Reference.ext r2 t2] =
        some (st, [localPointer category n1, localPointer category n2]) ∧
      n1 ≠ n2 ∧
      localPointer category n1 ≠ localPointer category n2 ∧
      st.registry = (loaded declared).registry ++
        [(n1, Component.hoisted t1), (n2, Component.hoisted t2)] ∧
      st.registry.lookup n1 = some (Component.hoisted t1) ∧
      st.registry.lookup n2 = some (Component.hoisted t2) ∧
      (declared.Nodup → (st.registry.map Prod.fst).Nodup) ∧
      (nameResolver () ⟨r1⟩ ∉ declared → n1 = nameResolver () ⟨r1⟩) ∧
      (nameResolver () ⟨r2⟩ = nameResolver () ⟨r1⟩ →
        ∃ k, 2 ≤ k ∧ n2 = nameResolver () ⟨r1⟩ ++ decimal k) ∧
      (nameResolver () ⟨r2⟩ = nameResolver () ⟨r1⟩ → nameResolver () ⟨r1⟩ ∉ declared →
        nameResolver () ⟨r1⟩ ++ decimal 2 ∉ declared →
        n2 = nameResolver () ⟨r1⟩ ++ decimal 2) := by
  have ht : t1 ≠ t2 := fun h => hfiles (by rw [h])
  -- the first reference
  obtain ⟨n1, hstep1, hfree1, hcand1, _, _⟩ :=
    internalizeReference_fresh category (loaded declared) r1 t1 rfl
      (loaded_not_hoisted declared t1)
  rw [names_loaded] at hfree1 hcand1
  -- the second reference, in the state the first one leaves
  have hvis2 : (hoist category (loaded declared) t1 n1).1.visited.lookup t2 = none := by
    have : (t2 == t1) = false := by simpa using fun h : t2 = t1 => ht h.symm
    simp [hoist, loaded, List.lookup, this]
  have hreg2 : ∀ e ∈ (hoist category (loaded declared) t1 n1).1.registry,
      e.2 ≠ Component.hoisted t2 := by
    intro e he
    simp only [hoist, List.mem_append, List.mem_singleton] at he
    rcases he with he | he
    · exact loaded_not_hoisted declared t2 e he
    · rw [he]
      simpa using ht
  obtain ⟨n2, hstep2, hfree2, _, hsuf2, htwo2⟩ :=
    internalizeReference_fresh category (hoist category (loaded declared) t1 n1).1 r2 t2
      hvis2 hreg2
  have hnames1 : (hoist category (loaded declared) t1 n1).1.registry.map Prod.fst =
      declared ++ [n1] := by
    simp [hoist, names_loaded]
  rw [hnames1] at hfree2 hsuf2 htwo2
  have hne : n1 ≠ n2 := by
    intro h
    exact hfree2 (by simp [h])
  have hfree2d : n2 ∉ declared := fun h => hfree2 (List.mem_append_left _ h)
  refine ⟨n1, n2, (hoist category (hoist category (loaded declared) t1 n1).1 t2 n2).1,
    ?_, hne, fun h => hne (localPointer_injective _ _ _ h), ?_, ?_, ?_, ?_, hcand1, ?_, ?_⟩
  · simp only [internalize, hstep1, hstep2]
    rfl
  · simp [hoist]
  · have hreg : (hoist category (hoist category (loaded declared) t1 n1).1 t2 n2).1.registry =
        (loaded declared).registry ++
          (n1, Component.hoisted t1) :: [(n2, Component.hoisted t2)] := by simp [hoist]
    rw [hreg]
    exact lookup_append_fresh _ _ _ _ (by rw [names_loaded]; exact hfree1)
  · have hreg : (hoist category (hoist category (loaded declared) t1 n1).1 t2 n2).1.registry =
        ((loaded declared).registry ++ [(n1, Component.hoisted t1)]) ++
          (n2, Component.hoisted t2) :: [] := by simp [hoist]
    rw [hreg]
    apply lookup_append_fresh
    simpa [names_loaded] using hfree2
  · intro hnd
    have hnames : (hoist category (hoist category (loaded declared) t1 n1).1 t2 n2).1.registry.map
        Prod.fst = declared ++ [n1, n2] := by
      simp [hoist, names_loaded]
    rw [hnames, List.nodup_append]
    refine ⟨hnd, by simp [hne], ?_⟩
    intro a ha hb
    simp only [List.mem_cons, List.mem_singleton, List.not_mem_nil, or_false] at hb
    rcases hb with rfl | rfl
    · exact hfree1 ha
    · exact hfree2d ha
  · intro hsame
    rw [hsame] at hsuf2
    apply hsuf2
    by_cases hd : nameResolver () ⟨r1⟩ ∈ declared
    · exact List.mem_append_left _ hd
    · rw [hcand1 hd]; simp
  · intro hsame hd hd2
    rw [hsame] at htwo2
    apply htwo2
    · rw [hcand1 hd]; simp
    · rw [hcand1 hd]
      simp only [List.mem_append, List.mem_singleton, not_or]
      refine ⟨hd2, ?_⟩
      rw [decimal_two]
      simp

/-- C2 at `a/error.yaml` and `b/error.yaml`, referenced from a root that declares
no component: the two sites become `#/components/schemas/error` and
`#/components/schemas/error2`. -/
theorem distinct_files_distinct_names_witness :
    (internalize "schemas".toList (loaded [])
        [Reference.ext "a/error.yaml".toList ⟨"/work/a/error.yaml".toList, []⟩,
          Reference.ext "b/error.yaml".toList ⟨"/work/b/error.yaml".toList, []⟩]).map
        Prod.snd =
      some ["#/components/schemas/error".toList, "#/components/schemas/error2".toList] := by
  obtain ⟨n1, n2, st, hrun, _, _, _, _, _, _, h1, _, h2⟩ :=
    distinct_files_distinct_names "schemas".toList [] "a/error.yaml".toList
      "b/error.yaml".toList ⟨"/work/a/error.yaml".toList, []⟩
      ⟨"/work/b/error.yaml".toList, []⟩ (by decide)
  have e1 : n1 = "error".toList := h1 (by decide)
  have e2 : n2 = "error2".toList := h2 (by decide) (by decide) (by decide)
  rw [hrun, e1, e2]
  rfl

/-- C7.  Two reference strings for the same fragment, spelled with different
directory prefixes in front of the same file name and the same pointer, get the
same name from the resolver.  Internalizing the two sites from the loaded root
document does not fail, adds exactly one entry to the registry, the only one that
holds the fragment, and points both sites at it; its name is the resolver's name
when that is free. -/
theorem same_fragment_one_entry {T1 T2 : Type} (t1 : T1) (t2 : T2)
    (category d1 d2 file frag : GoString) (declared : List GoString) (t : Target)
    (h1 : IsDirPrefix d1) (h2 : IsDirPrefix d2) (hne : file ≠ []) (hf : '/' ∉ file) :
    nameResolver t1 ⟨d1 ++ file ++ frag⟩ = nameResolver t2 ⟨d2 ++ file ++ frag⟩ ∧
    ∃ n st,
      internalize category (loaded declared)
          [Reference.ext (d1 ++ file ++ frag) t, Reference.ext (d2 ++ file ++ frag) t] =
        some (st, [localPointer category n, localPointer category n]) ∧
      st.registry = (loaded declared).registry ++ [(n, Component.hoisted t)] ∧
      st.registry.lookup n = some (Component.hoisted t) ∧
      st.registry.countP (fun e => e.2 == Component.hoisted t) = 1 ∧
      (nameResolver t1 ⟨d1 ++ file ++ frag⟩ ∉ declared →
        n = nameResolver t1 ⟨d1 ++ file ++ frag⟩) := by
  have e1 : nameResolver t1 ⟨d1 ++ file ++ frag⟩ = nameResolver () ⟨file ++ frag⟩ :=
    nameResolver_dirPrefix _ d1 file frag h1 hne hf
  have e2 : nameResolver t2 ⟨d2 ++ file ++ frag⟩ = nameResolver () ⟨file ++ frag⟩ :=
    nameResolver_dirPrefix _ d2 file frag h2 hne hf
  refine ⟨e1.trans e2.symm, ?_⟩
  obtain ⟨n, hstep1, hfree1, hcand1, _, _⟩ :=
    internalizeReference_fresh category (loaded declared) (d1 ++ file ++ frag) t rfl
      (loaded_not_hoisted declared t)
  rw [names_loaded] at hfree1 hcand1
  have hvis2 : (hoist category (loaded declared) t n).1.visited.lookup t = some n := by
    simp [hoist, loaded, List.lookup]
  have hstep2 := internalizeReference_visited category (hoist category (loaded declared) t n).1
    (d2 ++ file ++ frag) t n hvis2
  refine ⟨n, (hoist category (loaded declared) t n).1, ?_, ?_, ?_, ?_, hcand1⟩
  · simp only [internalize, hstep1, hstep2]
    rfl
  · simp [hoist]
  · have hreg : (hoist category (loaded declared) t n).1.registry =
        (loaded declared).registry ++ (n, Component.hoisted t) :: [] := by simp [hoist]
    rw [hreg]
    exact lookup_append_fresh _ _ _ _ (by rw [names_loaded]; exact hfree1)
  · have hzero : (loaded declared).registry.countP (fun e => e.2 == Component.hoisted t) = 0 := by
      rw [List.countP_eq_zero]
      intro e he
      simpa using loaded_not_hoisted declared t e he
    simp [hoist, List.countP_append, hzero]

/-- C7 at `schemas/error.yaml#/components/schemas/Error` in the root and
`./error.yaml#/components/schemas/Error` in a sibling file, one fragment: both
sites become `#/components/schemas/Error`. -/
theorem same_fragment_one_entry_witness :
    (internalize "schemas".toList (loaded [])
        [Reference.ext "schemas/error.yaml#/components/schemas/Error".toList
            ⟨"/work/schemas/error.yaml".toList, "/components/schemas/Error".toList⟩,
          Reference.ext "./error.yaml#/components/schemas/Error".toList
            ⟨"/work/schemas/error.yaml".toList, "/components/schemas/Error".toList⟩]).map
        Prod.snd =
      some ["#/components/schemas/Error".toList, "#/components/schemas/Error".toList] := by
  obtain ⟨_, n, st, hrun, _, _, _, hn⟩ :=
    same_fragment_one_entry () () "schemas".toList "schemas/".toList "./".toList
      "error.yaml".toList "#/components/schemas/Error".toList []
      ⟨"/work/schemas/error.yaml".toList, "/components/schemas/Error".toList⟩
      (by decide) (by decide) (by decide) (by decide)
  have e : n = "Error".toList := hn (by decide)
  have hrun2 : internalize "schemas".toList (loaded [])
      [Reference.ext "schemas/error.yaml#/components/schemas/Error".toList
          ⟨"/work/schemas/error.yaml".toList, "/components/schemas/Error".toList⟩,
        Reference.ext "./error.yaml#/components/schemas/Error".toList
          ⟨"/work/schemas/error.yaml".toList, "/components/schemas/Error".toList⟩] =
      some (st, [localPointer "schemas".toList n, localPointer "schemas".toList n]) := hrun
  rw [hrun2, e]
  rfl

end Internalize

end OapiMerger
